import Mathlib

/-!
Verification of the track matching and playlist reconciliation engine of
`playlist-sync` (`spotsync`): a shallow embedding of `matcher.py` and
`comparer.py`, followed by theorems settling the frozen claims C1..C10.

Python strings are modelled as `List Char` (`Str`), the `float` scores as
exact rationals `ℚ`, `Optional[T]` as `Option T`, and the dict-shaped track
records as structures.  `Levenshtein.ratio` (the only external call in the
scoring path) is modelled by its documented formula
`(len1 + len2 - dist) / (len1 + len2)` over the insertion/deletion edit
distance.
-/

namespace SpotSync

/-- Python strings, modelled as lists of characters. -/
abbrev Str := List Char

/-- The character class `\s` used by `str.split()`, `str.strip()` and the
regex substitutions in `_clean_string`. -/
def isSpaceChar (c : Char) : Bool := c.isWhitespace

/-- The character class `\w` (word characters) of `re.sub(r'[^\w\s]', ' ', _)`. -/
def isWordChar (c : Char) : Bool := c.isAlphanum || c = '_'

/-- Python `str.lower()`. -/
def lowerStr (s : Str) : Str := s.map Char.toLower

/-- Python `str.strip()`: drop leading and trailing whitespace. -/
def pstrip (s : Str) : Str :=
  ((s.dropWhile isSpaceChar).reverse.dropWhile isSpaceChar).reverse

/-- Python `s.split(sep)` for a one-character separator `sep`
(`feat.split('&')`, `feat.split(',')`, `spotify_track['artists'].split(',')`).
Note `''.split(sep) == ['']`. -/
def pySplit (sep : Char) : Str → List Str
  | [] => [[]]
  | c :: rest =>
    if c = sep then [] :: pySplit sep rest
    else
      match pySplit sep rest with
      | [] => [[c]]
      | w :: ws => (c :: w) :: ws

/-- Worker for `splitWS`: cuts the string at every whitespace character,
producing (possibly empty) chunks. -/
def splitWSAux (s : Str) : List Str :=
  s.foldr
    (fun c acc =>
      if isSpaceChar c then [] :: acc
      else
        match acc with
        | [] => [[c]]
        | w :: ws => (c :: w) :: ws)
    []

/-- Python `str.split()` with no argument: maximal runs of non-whitespace. -/
def splitWS (s : Str) : List Str :=
  (splitWSAux s).filter (fun w => w ≠ [])

/-- Python `' '.join(ws)`. -/
def joinSpace : List Str → Str
  | [] => []
  | [w] => w
  | w :: v :: ws => w ++ ' ' :: joinSpace (v :: ws)

/-- Python substring test `a in b`. -/
def pyIn (a b : Str) : Bool := decide (a <:+: b)

/-- Split a string at the first occurrence of `sep`: returns the part
before (which does not contain `sep`) and the part after, or `none` when
`sep` does not occur. -/
def splitAtChar (sep : Char) : Str → Option (Str × Str)
  | [] => none
  | c :: rest =>
    if c = sep then some ([], rest)
    else
      match splitAtChar sep rest with
      | some (a, b) => some (c :: a, b)
      | none => none

theorem splitAtChar_length_lt (sep : Char) (l : Str) (a b : Str)
    (h : splitAtChar sep l = some (a, b)) : b.length < l.length := by
  induction l generalizing a b with
  | nil => simp [splitAtChar] at h
  | cons c rest ih =>
    by_cases hc : c = sep
    · simp [splitAtChar, hc] at h
      obtain ⟨h1, h2⟩ := h
      subst h2
      simp
    · simp only [splitAtChar, if_neg hc] at h
      cases hsp : splitAtChar sep rest with
      | none => rw [hsp] at h; simp at h
      | some p =>
        obtain ⟨a', b'⟩ := p
        rw [hsp] at h
        simp at h
        obtain ⟨h1, h2⟩ := h
        subst h2
        have := ih a' b' hsp
        simp only [List.length_cons]
        omega

theorem splitAtChar_append (sep : Char) (l : Str) (a b : Str)
    (h : splitAtChar sep l = some (a, b)) : l = a ++ sep :: b := by
  induction l generalizing a b with
  | nil => simp [splitAtChar] at h
  | cons c rest ih =>
    by_cases hc : c = sep
    · simp [splitAtChar, hc] at h
      obtain ⟨h1, h2⟩ := h
      subst h1
      subst h2
      simp [hc]
    · simp only [splitAtChar, if_neg hc] at h
      cases hsp : splitAtChar sep rest with
      | none => rw [hsp] at h; simp at h
      | some p =>
        obtain ⟨a', b'⟩ := p
        rw [hsp] at h
        simp at h
        obtain ⟨h1, h2⟩ := h
        subst h1
        subst h2
        have := ih a' b' hsp
        simp [this]

/-- The keyword test of the two "important content" regexes of
`_clean_string`: the span content mentions remix/mix/edit/version/rework. -/
def containsKeyword (s : Str) : Bool :=
  ["remix", "mix", "edit", "version", "rework"].any fun k => pyIn k.toList s

/-- Fuelled worker for `findSpans`.  The fuel only bounds the recursion
depth; every recursive call strictly shrinks the string, so fuel
`s.length` never runs out (`splitAtChar_length_lt`). -/
def findSpansF (openC closeC : Char) : Nat → Str → List Str
  | _, [] => []
  | 0, _ :: _ => []
  | fuel + 1, c :: rest =>
    if c = openC then
      match splitAtChar closeC rest with
      | some (content, after) =>
        if containsKeyword content then
          content :: findSpansF openC closeC fuel after
        else
          findSpansF openC closeC fuel rest
      | none => findSpansF openC closeC fuel rest
    else findSpansF openC closeC fuel rest

/-- `re.findall` for the two patterns
`\[([^\]]*(?:remix|mix|edit|version|rework)[^\]]*)\]` and
`\(([^)]*(?:remix|mix|edit|version|rework)[^)]*)\)` of `_clean_string`:
scan left to right; at each opening character, the candidate span runs to
the first closing character; it matches when its content mentions a
keyword, and scanning resumes after the span; otherwise scanning resumes
just after the opening character. -/
def findSpans (openC closeC : Char) (s : Str) : List Str :=
  findSpansF openC closeC s.length s

/-- Fuelled worker for `removeSpans`. -/
def removeSpansF (openC closeC : Char) : Nat → Str → Str
  | _, [] => []
  | 0, s => s
  | fuel + 1, c :: rest =>
    if c = openC then
      match splitAtChar closeC rest with
      | some (_, after) => removeSpansF openC closeC fuel after
      | none => c :: removeSpansF openC closeC fuel rest
    else c :: removeSpansF openC closeC fuel rest

/-- `re.sub(r'\([^)]*\)', '', _)` and `re.sub(r'\[[^\]]*\]', '', _)`:
delete every span from an opening character to the first closing
character after it. -/
def removeSpans (openC closeC : Char) (s : Str) : Str :=
  removeSpansF openC closeC s.length s

/-- The five ways the alternation `(?:feat\.?|featuring|ft\.?)` can consume
input, in backtracking order. -/
def featPrefixes : List Str :=
  ["feat.".toList, "feat".toList, "featuring".toList, "ft.".toList, "ft".toList]

/-- Attempt the tail `(?:feat\.?|featuring|ft\.?)\s*([^)]+)\)` of the
featuring regex at the position just after an opening parenthesis, trying
the alternation branches in backtracking order.  On success, returns the
captured group `([^)]+)` (with `\s*` having greedily eaten leading
whitespace, backing off only as far as needed to leave the group
non-empty) and the rest of the input after the closing parenthesis. -/
def tryFeatPrefixes : List Str → Str → Option (Str × Str)
  | [], _ => none
  | p :: ps, u =>
    if p.isPrefixOf u then
      match splitAtChar ')' (u.drop p.length) with
      | some (before, after) =>
        if before = [] then tryFeatPrefixes ps u
        else
          let g := before.dropWhile isSpaceChar
          some ((if g = [] then before.drop (before.length - 1) else g), after)
      | none => tryFeatPrefixes ps u
    else tryFeatPrefixes ps u

theorem tryFeatPrefixes_length_lt (ps : List Str) (u : Str) (g after : Str)
    (h : tryFeatPrefixes ps u = some (g, after)) : after.length < u.length := by
  induction ps with
  | nil => simp [tryFeatPrefixes] at h
  | cons p ps ih =>
    simp only [tryFeatPrefixes] at h
    by_cases hp : p.isPrefixOf u
    · rw [if_pos hp] at h
      cases hsp : splitAtChar ')' (u.drop p.length) with
      | none => rw [hsp] at h; exact ih h
      | some bp =>
        obtain ⟨bf, af⟩ := bp
        rw [hsp] at h
        simp only at h
        by_cases hb : bf = []
        · rw [if_pos hb] at h; exact ih h
        · rw [if_neg hb] at h
          simp only [Option.some.injEq, Prod.mk.injEq] at h
          obtain ⟨h1, h2⟩ := h
          subst h2
          have h3 := splitAtChar_length_lt ')' (u.drop p.length) bf af hsp
          have h4 : (u.drop p.length).length ≤ u.length := by
            simp [List.length_drop]
          omega
    · rw [if_neg hp] at h
      exact ih h

/-- Fuelled worker for `findFeats`. -/
def findFeatsF : Nat → Str → List Str
  | _, [] => []
  | 0, _ :: _ => []
  | fuel + 1, c :: rest =>
    if c = '(' then
      match tryFeatPrefixes featPrefixes rest with
      | some (g, after) => g :: findFeatsF fuel after
      | none => findFeatsF fuel rest
    else findFeatsF fuel rest

/-- `re.findall(r'\((?:feat\.?|featuring|ft\.?)\s*([^)]+)\)', text)`:
the captured name-groups, scanning left to right.  Fuel `s.length` never
runs out (`tryFeatPrefixes_length_lt`). -/
def findFeats (s : Str) : List Str :=
  findFeatsF s.length s

/-- The membership check of the featuring step of `_clean_string`:
`any(name.strip().lower() in text.lower()
     for name in feat.split('&') + feat.split(',') if name.strip())`. -/
def anyNameInText (f text : Str) : Bool :=
  (pySplit '&' f ++ pySplit ',' f).any fun n =>
    pstrip n ≠ [] && pyIn (lowerStr (pstrip n)) (lowerStr text)

/-- The `important_content` list built in matcher.py:145-161: keyword
spans from brackets, keyword spans from parentheses, then featuring
groups whose component names are not already mentioned. -/
def cleanImportant (text : Str) : List Str :=
  findSpans '[' ']' text ++ findSpans '(' ')' text ++
    (findFeats text).filter fun f => ! anyNameInText f text

/-- The text after matcher.py:163-165: all parenthesized spans removed,
then all bracketed spans removed. -/
def textOne (text : Str) : Str :=
  removeSpans '[' ']' (removeSpans '(' ')' text)

/-- The text after matcher.py:167-169: the extracted important content
appended back, space-joined, when non-empty. -/
def textTwo (text : Str) : Str :=
  if cleanImportant text ≠ [] then textOne text ++ ' ' :: joinSpace (cleanImportant text)
  else textOne text

/-- The text after matcher.py:172: every character that is not a word
character and not whitespace replaced by a space. -/
def textThree (text : Str) : Str :=
  (textTwo text).map fun c => if isWordChar c || isSpaceChar c then c else ' '

/-- matcher.py:163-177 applied to the already lower-cased text: strip all
parenthesized/bracketed spans, append the extracted content, replace
non-word non-space characters by spaces, and collapse whitespace
(`' '.join(text.split())` then `strip()`). -/
def cleanBody (text : Str) : Str :=
  pstrip (joinSpace (splitWS (textThree text)))

/-- `TrackMatcher._clean_string` (matcher.py:129-177): lower-case, extract
keyword-bearing bracketed/parenthesized spans and not-already-mentioned
featuring groups, strip all bracketed/parenthesized spans, append the
extracted content, replace non-word non-space characters by spaces, and
collapse whitespace. -/
def clean_string (t : Option Str) : Str :=
  match t with
  | none => []
  | some s =>
    if s = [] then []
    else cleanBody (lowerStr s)

/-- Helper for `indelDist`: given `dxs = indelDist xs ·`, computes
`indelDist (x :: xs) ·` by structural recursion on the second string. -/
def indelAux (x : Char) (dxs : Str → Nat) : Str → Nat
  | [] => dxs [] + 1
  | y :: ys =>
    if x = y then dxs ys
    else 1 + min (dxs (y :: ys)) (indelAux x dxs ys)

/-- The insertion/deletion edit distance underlying `Levenshtein.ratio`
(substitution counts as one deletion plus one insertion). -/
def indelDist : Str → Str → Nat
  | [], ys => ys.length
  | x :: xs, ys => indelAux x (indelDist xs) ys

/-- `Levenshtein.ratio`, by its documented formula
`(len1 + len2 - dist) / (len1 + len2)`, and `1.0` when both strings are
empty. -/
def ratio (a b : Str) : ℚ :=
  if a.length + b.length = 0 then 1
  else ((a.length + b.length : ℚ) - indelDist a b) / (a.length + b.length)

/-- The set-equality test of matcher.py:110,
`set(local_artist.split()) == set(clean_spotify_artist.split())`. -/
def sameWordSet (a b : List Str) : Bool :=
  a.all (fun w => b.contains w) && b.all (fun w => a.contains w)

/-- `TrackMatcher._calculate_match_score` (matcher.py:86-127). -/
def calculate_match_score (local_title local_artist spotify_title spotify_artist : Str) : ℚ :=
  let clean_spotify_title := clean_string (some spotify_title)
  let clean_spotify_artist := clean_string (some spotify_artist)
  let title_score := ratio local_title clean_spotify_title
  let total_score :=
    if local_artist ≠ [] ∧ clean_spotify_artist ≠ [] then
      let artist_score0 := ratio local_artist clean_spotify_artist
      let artist_score1 :=
        if pyIn (lowerStr local_artist) (lowerStr clean_spotify_artist) then
          max artist_score0 (9 / 10)
        else artist_score0
      let local_words := splitWS local_artist
      let spotify_words := splitWS clean_spotify_artist
      let artist_score :=
        if sameWordSet local_words spotify_words ∧ 1 < local_words.dedup.length then
          max artist_score1 (19 / 20)
        else artist_score1
      if artist_score < 3 / 5 then title_score * (2 / 5) + artist_score * (3 / 5)
      else title_score * (3 / 5) + artist_score * (2 / 5)
    else title_score
  if local_title = clean_spotify_title then min 1 (total_score + 1 / 10) else total_score

/-- A Spotify API track object as consumed by `match_track`
(`track.get('name', '')`, `[artist['name'] for artist in track.get('artists', [])]`,
`track.get('id')`). -/
structure Candidate where
  id : Option Str
  name : Str
  artists : List Str
deriving Repr, DecidableEq

/-- `MatchResult` (matcher.py:9-17). -/
structure MatchResult where
  spotify_id : Str
  confidence : ℚ
  matched_title : Str
  matched_artist : Str
  original_title : Str
  original_artist : Option Str
deriving Repr, DecidableEq

/-- The artist display string built in matcher.py:57:
`' '.join(spotify_artists)`. -/
def artistDisplay (c : Candidate) : Str := joinSpace c.artists

/-- The score the matcher loop computes for one candidate
(matcher.py:64-67). -/
def candidateScore (clean_title clean_artist : Str) (c : Candidate) : ℚ :=
  calculate_match_score clean_title clean_artist c.name (artistDisplay c)

/-- The candidate loop of `match_track` (matcher.py:53-78): running best
match and best score, updated on a strict `>` comparison, skipping
candidates without an id. -/
def scanBest (clean_title clean_artist local_title : Str) (local_artist : Option Str) :
    List Candidate → Option MatchResult → ℚ → Option MatchResult
  | [], best, _ => best
  | c :: cs, best, best_score =>
    match c.id with
    | none => scanBest clean_title clean_artist local_title local_artist cs best best_score
    | some id =>
      let score := candidateScore clean_title clean_artist c
      if best_score < score then
        scanBest clean_title clean_artist local_title local_artist cs
          (some ⟨id, score, c.name, artistDisplay c, local_title, local_artist⟩) score
      else
        scanBest clean_title clean_artist local_title local_artist cs best best_score

/-- The cleaning of the local artist in matcher.py:51:
`self._clean_string(local_artist) if local_artist else ""`. -/
def cleanLocalArtist (local_artist : Option Str) : Str :=
  match local_artist with
  | none => []
  | some a => if a = [] then [] else clean_string (some a)

/-- `TrackMatcher.match_track` (matcher.py:31-84), with the configured
threshold passed explicitly. -/
def match_track (threshold : ℚ) (local_title : Str) (local_artist : Option Str)
    (spotify_results : List Candidate) : Option MatchResult :=
  if spotify_results = [] then none
  else
    let clean_title := clean_string (some local_title)
    let clean_artist := cleanLocalArtist local_artist
    match scanBest clean_title clean_artist local_title local_artist spotify_results none 0 with
    | some best_match =>
      if threshold ≤ best_match.confidence then some best_match else none
    | none => none

/-- `Track` (parser.py:9-15). -/
structure Track where
  title : Str
  artist : Option Str
  duration : Option Int
  file_path : Option Str
deriving Repr, DecidableEq

/-- A Spotify playlist track dict as consumed by `compare_playlists`
(keys `id`, `name`, and `artists` as one comma-separated display
string). -/
structure SpotifyTrack where
  id : Str
  name : Str
  artists : Str
deriving Repr, DecidableEq

/-- `ComparisonResult` (comparer.py:9-17). -/
structure ComparisonResult where
  local_only : List Track
  spotify_only : List SpotifyTrack
  matched : List (Track × SpotifyTrack)
  total_local : Nat
  total_spotify : Nat
  match_percentage : ℚ
deriving Repr

/-- The conversion of a Spotify playlist dict to the format expected by
`TrackMatcher` (comparer.py:62-67). -/
def toMatcherFormat (st : SpotifyTrack) : Candidate :=
  { id := some st.id
    name := st.name
    artists := (pySplit ',' st.artists).map pstrip }

/-- The per-local-track loop of `compare_playlists` (comparer.py:54-91):
returns the matched pairs, the left-only tracks, and the final set of
consumed Spotify ids (modelled as a list), threading the consumed-id
state in input order. -/
def compareLoop (threshold : ℚ) (spotify_tracks : List SpotifyTrack) :
    List Track → List Str →
    List (Track × SpotifyTrack) × List Track × List Str
  | [], ids => ([], [], ids)
  | lt :: rest, ids =>
    let spotify_results :=
      (spotify_tracks.filter fun st => ! ids.contains st.id).map toMatcherFormat
    match match_track threshold lt.title lt.artist spotify_results with
    | some r =>
      match spotify_tracks.find? (fun st => st.id == r.spotify_id) with
      | some matched_spotify_track =>
        let (ps, lo, ids') := compareLoop threshold spotify_tracks rest (r.spotify_id :: ids)
        ((lt, matched_spotify_track) :: ps, lo, ids')
      | none =>
        let (ps, lo, ids') := compareLoop threshold spotify_tracks rest ids
        (ps, lt :: lo, ids')
    | none =>
      let (ps, lo, ids') := compareLoop threshold spotify_tracks rest ids
      (ps, lt :: lo, ids')

/-- `PlaylistComparer.compare_playlists` (comparer.py:31-110), with the
matcher threshold passed explicitly (the default comparer uses 0.83). -/
def compare_playlists (threshold : ℚ) (local_tracks : List Track)
    (spotify_tracks : List SpotifyTrack) : ComparisonResult :=
  let res := compareLoop threshold spotify_tracks local_tracks []
  let matched_pairs := res.1
  let local_only := res.2.1
  let matched_spotify_ids := res.2.2
  let spotify_only := spotify_tracks.filter fun st => ! matched_spotify_ids.contains st.id
  let total_unique := local_tracks.length + spotify_only.length
  let match_percentage : ℚ :=
    if 0 < total_unique then (matched_pairs.length : ℚ) / total_unique * 100 else 0
  { local_only := local_only
    spotify_only := spotify_only
    matched := matched_pairs
    total_local := local_tracks.length
    total_spotify := spotify_tracks.length
    match_percentage := match_percentage }

theorem indelDist_le (a b : Str) : indelDist a b ≤ a.length + b.length := by
  induction a generalizing b with
  | nil => simp [indelDist]
  | cons x xs ih =>
    have aux : ∀ c : Str, indelAux x (indelDist xs) c ≤ (xs.length + 1) + c.length := by
      intro c
      induction c with
      | nil =>
        have := ih []
        simp only [indelAux, List.length_nil, Nat.add_zero] at this ⊢
        omega
      | cons y ys ihc =>
        simp only [indelAux]
        split
        · have := ih ys
          simp only [List.length_cons]
          omega
        · have h1 := ih (y :: ys)
          have h2 := min_le_left (indelDist xs (y :: ys)) (indelAux x (indelDist xs) ys)
          simp only [List.length_cons] at h1 ⊢
          omega
    have := aux b
    simp only [indelDist, List.length_cons]
    omega

theorem ratio_nonneg (a b : Str) : 0 ≤ ratio a b := by
  unfold ratio
  split
  · norm_num
  · apply div_nonneg
    · have h := indelDist_le a b
      have : (indelDist a b : ℚ) ≤ (a.length : ℚ) + (b.length : ℚ) := by
        push_cast
        exact_mod_cast h
      linarith
    · positivity

theorem ratio_le_one (a b : Str) : ratio a b ≤ 1 := by
  unfold ratio
  split
  · exact le_refl 1
  · rename_i h
    have hpos : (0 : ℚ) < (a.length : ℚ) + (b.length : ℚ) := by
      have := Nat.pos_of_ne_zero h
      exact_mod_cast this
    rw [div_le_one hpos]
    have : (0 : ℚ) ≤ (indelDist a b : ℚ) := by positivity
    linarith

theorem calculate_match_score_mem (lt la st sa : Str) :
    0 ≤ calculate_match_score lt la st sa ∧ calculate_match_score lt la st sa ≤ 1 := by
  have t0 := ratio_nonneg lt (clean_string (some st))
  have t1 := ratio_le_one lt (clean_string (some st))
  have a0 := ratio_nonneg la (clean_string (some sa))
  have a1 := ratio_le_one la (clean_string (some sa))
  set a := ratio la (clean_string (some sa)) with ha
  have m0 : 0 ≤ max a ((9:ℚ)/10) := le_trans a0 (le_max_left _ _)
  have m1 : max a ((9:ℚ)/10) ≤ 1 := max_le a1 (by norm_num)
  have n0 : 0 ≤ max (max a ((9:ℚ)/10)) ((19:ℚ)/20) := le_trans m0 (le_max_left _ _)
  have n1 : max (max a ((9:ℚ)/10)) ((19:ℚ)/20) ≤ 1 := max_le m1 (by norm_num)
  have p0 : 0 ≤ max a ((19:ℚ)/20) := le_trans a0 (le_max_left _ _)
  have p1 : max a ((19:ℚ)/20) ≤ 1 := max_le a1 (by norm_num)
  simp only [calculate_match_score, ← ha]
  split_ifs <;>
    constructor <;>
    first
      | exact min_le_left _ _
      | (apply le_min (by norm_num) (by linarith))
      | linarith

theorem scanBest_some (ct ca lt : Str) (la : Option Str) (cs : List Candidate) :
    ∀ (best : Option MatchResult) (bs : ℚ) (r : MatchResult),
      scanBest ct ca lt la cs best bs = some r →
      best = some r ∨
        ∃ c ∈ cs, c.id = some r.spotify_id ∧
          r.confidence = candidateScore ct ca c ∧
          r.matched_title = c.name ∧ r.matched_artist = artistDisplay c ∧
          r.original_title = lt ∧ r.original_artist = la := by
  induction cs with
  | nil =>
    intro best bs r h
    left
    simpa [scanBest] using h
  | cons c cs ih =>
    intro best bs r h
    simp only [scanBest] at h
    cases hid : c.id with
    | none =>
      rw [hid] at h
      simp only at h
      rcases ih _ _ _ h with h' | ⟨c', hc', rest⟩
      · exact Or.inl h'
      · exact Or.inr ⟨c', List.mem_cons_of_mem _ hc', rest⟩
    | some id =>
      rw [hid] at h
      simp only at h
      by_cases hlt : bs < candidateScore ct ca c
      · rw [if_pos hlt] at h
        rcases ih _ _ _ h with h' | ⟨c', hc', rest⟩
        · right
          refine ⟨c, List.mem_cons_self _ _, ?_⟩
          have hr : r = ⟨id, candidateScore ct ca c, c.name, artistDisplay c, lt, la⟩ :=
            (Option.some.injEq _ _ ▸ h').symm
          subst hr
          exact ⟨hid, rfl, rfl, rfl, rfl, rfl⟩
        · exact Or.inr ⟨c', List.mem_cons_of_mem _ hc', rest⟩
      · rw [if_neg hlt] at h
        rcases ih _ _ _ h with h' | ⟨c', hc', rest⟩
        · exact Or.inl h'
        · exact Or.inr ⟨c', List.mem_cons_of_mem _ hc', rest⟩

theorem scanBest_stable (ct ca lt : Str) (la : Option Str) (cs : List Candidate) :
    ∀ (best : Option MatchResult) (bs : ℚ),
      (∀ c ∈ cs, ∀ id, c.id = some id → candidateScore ct ca c ≤ bs) →
      scanBest ct ca lt la cs best bs = best := by
  induction cs with
  | nil => intro best bs _; simp [scanBest]
  | cons c cs ih =>
    intro best bs hb
    simp only [scanBest]
    cases hid : c.id with
    | none =>
      simp only
      exact ih _ _ fun c' hc' id hid' => hb c' (List.mem_cons_of_mem _ hc') id hid'
    | some id =>
      simp only
      have hle := hb c (List.mem_cons_self _ _) id hid
      rw [if_neg (not_lt.mpr hle)]
      exact ih _ _ fun c' hc' id' hid' => hb c' (List.mem_cons_of_mem _ hc') id' hid'

theorem match_track_some (th : ℚ) (lt : Str) (la : Option Str) (rs : List Candidate)
    (r : MatchResult) (h : match_track th lt la rs = some r) :
    th ≤ r.confidence ∧
      ∃ c ∈ rs, c.id = some r.spotify_id ∧
        r.confidence = candidateScore (clean_string (some lt)) (cleanLocalArtist la) c ∧
        r.matched_title = c.name ∧ r.matched_artist = artistDisplay c ∧
        r.original_title = lt ∧ r.original_artist = la := by
  simp only [match_track] at h
  by_cases hrs : rs = []
  · simp [hrs] at h
  · rw [if_neg hrs] at h
    cases hsb : scanBest (clean_string (some lt)) (cleanLocalArtist la) lt la rs none 0 with
    | none => rw [hsb] at h; simp at h
    | some bm =>
      rw [hsb] at h
      simp only at h
      by_cases hth : th ≤ bm.confidence
      · rw [if_pos hth] at h
        have hbm : bm = r := by simpa using h
        subst hbm
        refine ⟨hth, ?_⟩
        rcases scanBest_some _ _ _ _ _ _ _ _ hsb with h' | hex
        · simp at h'
        · exact hex
      · rw [if_neg hth] at h
        simp at h

theorem match_track_nil (threshold : ℚ) (lt : Str) (la : Option Str) :
    match_track threshold lt la [] = none := by
  simp [match_track]

/-- Concrete evaluation: a perfect single-candidate match at threshold 0.83. -/
theorem eval_score_abc : calculate_match_score ['a','b','c'] [] ['a','b','c'] ['x'] = 1 := by
  have h1 : clean_string (some ['a','b','c']) = ['a','b','c'] := by decide
  have h2 : clean_string (some ['x']) = ['x'] := by decide
  have h3 : indelDist ['a','b','c'] ['a','b','c'] = 0 := by decide
  norm_num [calculate_match_score, h1, h2, ratio, h3]

/-- Concrete evaluation of `match_track` on a matching candidate. -/
theorem eval_match_abc : match_track (83/100) ['a','b','c'] none
    [⟨some ['i','d','1'], ['a','b','c'], [['x']]⟩] =
    some ⟨['i','d','1'], 1, ['a','b','c'], ['x'], ['a','b','c'], none⟩ := by
  have h0 : artistDisplay ⟨some ['i','d','1'], ['a','b','c'], [['x']]⟩ = ['x'] := by decide
  have h1 : clean_string (some ['a','b','c']) = ['a','b','c'] := by decide
  norm_num [match_track, scanBest, cleanLocalArtist, candidateScore, h0, h1, eval_score_abc]

/-- Concrete evaluation: a candidate scoring exactly 0 (disjoint one-letter
titles, no artist data). -/
theorem eval_score_zero :
    candidateScore (clean_string (some ['a'])) (cleanLocalArtist none)
      ⟨some ['i'], ['b'], []⟩ = 0 := by
  have h1 : clean_string (some ['a']) = ['a'] := by decide
  have h2 : clean_string (some ['b']) = ['b'] := by decide
  have h3 : clean_string (some ([] : Str)) = [] := by decide
  have h4 : indelDist ['a'] ['b'] = 2 := by decide
  have h5 : artistDisplay ⟨some ['i'], ['b'], []⟩ = [] := by decide
  norm_num [candidateScore, calculate_match_score, cleanLocalArtist, h1, h2, h3, h4, h5, ratio]
  decide

/-- Concrete evaluation of `match_track` on a candidate with two artist
names: the stored display string is the names joined with a single
space. -/
theorem eval_match_two_artists : match_track (1/2) ['x'] none
    [⟨some ['i'], ['x'], [['a'],['b']]⟩] =
    some ⟨['i'], 1, ['x'], ['a',' ','b'], ['x'], none⟩ := by
  have h0 : artistDisplay ⟨some ['i'], ['x'], [['a'],['b']]⟩ = ['a',' ','b'] := by decide
  have h1 : clean_string (some ['x']) = ['x'] := by decide
  have h2 : clean_string (some ['a',' ','b']) = ['a',' ','b'] := by decide
  have h3 : indelDist ['x'] ['x'] = 0 := by decide
  norm_num [match_track, scanBest, cleanLocalArtist, candidateScore, calculate_match_score,
    h0, h1, h2, h3, ratio]

/-- Claim C1: `match_track` returns a `MatchResult` only when its
confidence is at least the configured threshold; it returns `none` when
the candidate list is empty, and `none` whenever no candidate's score
reaches the threshold — absence is a normal return value. -/
theorem claim_C1 (th : ℚ) (lt : Str) (la : Option Str) (rs : List Candidate) (r : MatchResult) :
    (match_track th lt la rs = some r → th ≤ r.confidence) ∧
    (rs = [] → match_track th lt la rs = none) ∧
    ((∀ c ∈ rs, ∀ id, c.id = some id →
        candidateScore (clean_string (some lt)) (cleanLocalArtist la) c < th) →
      match_track th lt la rs = none) := by
  refine ⟨fun h => (match_track_some th lt la rs r h).1, fun h => h ▸ match_track_nil th lt la, ?_⟩
  intro hlow
  by_cases hrs : rs = []
  · exact hrs ▸ match_track_nil th lt la
  · simp only [match_track, if_neg hrs]
    cases hsb : scanBest (clean_string (some lt)) (cleanLocalArtist la) lt la rs none 0 with
    | none => simp
    | some bm =>
      simp only
      rcases scanBest_some _ _ _ _ _ _ _ _ hsb with h' | ⟨c, hc, hcid, hconf, _⟩
      · simp at h'
      · rw [if_neg (not_le.mpr (hconf ▸ hlow c hc _ hcid))]

/-- Witness for C1: a concrete above-threshold match, the empty candidate
list, and a concrete all-below-threshold candidate list. -/
theorem claim_C1_witness :
    ((83:ℚ)/100 ≤ 1) ∧
    (match_track 1 ['q'] none [] = none) ∧
    (match_track (1/2) ['a'] none [⟨some ['i'], ['b'], []⟩] = none) :=
  ⟨(claim_C1 (83/100) ['a','b','c'] none [⟨some ['i','d','1'], ['a','b','c'], [['x']]⟩]
      ⟨['i','d','1'], 1, ['a','b','c'], ['x'], ['a','b','c'], none⟩).1 eval_match_abc,
   (claim_C1 1 ['q'] none [] ⟨[], 0, [], [], [], none⟩).2.1 rfl,
   (claim_C1 (1/2) ['a'] none [⟨some ['i'], ['b'], []⟩] ⟨[], 0, [], [], [], none⟩).2.2
     (by
       intro c hc id hid
       have hc' : c = ⟨some ['i'], ['b'], []⟩ := by simpa using hc
       subst hc'
       rw [eval_score_zero]
       norm_num)⟩

/-- Claim C3: every confidence carried by a returned `MatchResult` lies in
the closed interval [0, 1]. -/
theorem claim_C3 (th : ℚ) (lt : Str) (la : Option Str) (rs : List Candidate) (r : MatchResult)
    (h : match_track th lt la rs = some r) :
    0 ≤ r.confidence ∧ r.confidence ≤ 1 := by
  rcases (match_track_some th lt la rs r h).2 with ⟨c, _, _, hconf, _⟩
  rw [hconf]
  exact calculate_match_score_mem _ _ _ _

/-- Witness for C3 at a concrete successful match. -/
theorem claim_C3_witness : (0 : ℚ) ≤ 1 ∧ (1 : ℚ) ≤ 1 :=
  claim_C3 (83/100) ['a','b','c'] none [⟨some ['i','d','1'], ['a','b','c'], [['x']]⟩]
    ⟨['i','d','1'], 1, ['a','b','c'], ['x'], ['a','b','c'], none⟩ eval_match_abc

/-- Counterexample to C6: for a candidate with artists `["a", "b"]` the
matcher stores `matched_artist = "a b"` (space-joined, matcher.py:57), not
the claimed `"a, b"`. -/
theorem claim_C6_counterexample :
    match_track (1/2) ['x'] none [⟨some ['i'], ['x'], [['a'],['b']]⟩] =
      some ⟨['i'], 1, ['x'], ['a',' ','b'], ['x'], none⟩ ∧
    (['a',' ','b'] : Str) ≠ ['a',',',' ','b'] :=
  ⟨eval_match_two_artists, by decide⟩

/-- Claim C6 (amended): the artist display string stored in
`MatchResult.matched_artist` is the candidate's artist names joined with
the separator `" "` (a single space), in the order given. -/
theorem claim_C6 (th : ℚ) (lt : Str) (la : Option Str) (rs : List Candidate) (r : MatchResult)
    (h : match_track th lt la rs = some r) :
    ∃ c ∈ rs, r.matched_artist = joinSpace c.artists := by
  rcases (match_track_some th lt la rs r h).2 with ⟨c, hc, _, _, _, hart, _⟩
  exact ⟨c, hc, hart⟩

/-- Witness for C6 at a concrete two-artist candidate. -/
theorem claim_C6_witness :
    ∃ c ∈ [(⟨some ['i'], ['x'], [['a'],['b']]⟩ : Candidate)],
      (['a',' ','b'] : Str) = joinSpace c.artists :=
  claim_C6 (1/2) ['x'] none [⟨some ['i'], ['x'], [['a'],['b']]⟩]
    ⟨['i'], 1, ['x'], ['a',' ','b'], ['x'], none⟩ eval_match_two_artists

/-- Claim C9: when every candidate's computed score is 0.0, `match_track`
returns `none` for every threshold — including threshold 0 — because a
candidate only becomes the best match by strictly exceeding the running
best score, which starts at 0. -/
theorem claim_C9 (th : ℚ) (lt : Str) (la : Option Str) (rs : List Candidate)
    (hne : rs ≠ [])
    (hz : ∀ c ∈ rs, ∀ id, c.id = some id →
      candidateScore (clean_string (some lt)) (cleanLocalArtist la) c = 0) :
    match_track th lt la rs = none := by
  simp only [match_track, if_neg hne]
  rw [scanBest_stable _ _ _ _ _ _ _ fun c hc id hid => le_of_eq (hz c hc id hid)]

/-- Witness for C9: a concrete zero-scoring candidate at threshold 0. -/
theorem claim_C9_witness : match_track 0 ['a'] none [⟨some ['i'], ['b'], []⟩] = none :=
  claim_C9 0 ['a'] none [⟨some ['i'], ['b'], []⟩] (by decide)
    (by
      intro c hc id hid
      have hc' : c = ⟨some ['i'], ['b'], []⟩ := by simpa using hc
      subst hc'
      exact eval_score_zero)

theorem match_track_id_fresh (th : ℚ) (lt : Str) (la : Option Str)
    (sts : List SpotifyTrack) (ids : List Str) (r : MatchResult)
    (h : match_track th lt la
      ((sts.filter fun st => !ids.contains st.id).map toMatcherFormat) = some r) :
    r.spotify_id ∉ ids := by
  rcases (match_track_some _ _ _ _ _ h).2 with ⟨c, hc, hcid, _⟩
  rcases List.mem_map.mp hc with ⟨st0, hst0, hconv⟩
  rcases List.mem_filter.mp hst0 with ⟨_, hkeep⟩
  have hid0 : st0.id = r.spotify_id := by
    rw [← hconv] at hcid
    simpa [toMatcherFormat] using hcid
  intro hmem
  rw [← hid0] at hmem
  simp [hmem] at hkeep

theorem compareLoop_inv (th : ℚ) (sts : List SpotifyTrack) (lts : List Track) :
    ∀ ids : List Str,
      (∀ x ∈ ids, x ∈ (compareLoop th sts lts ids).2.2) ∧
      (∀ p ∈ (compareLoop th sts lts ids).1,
        p.2.id ∈ (compareLoop th sts lts ids).2.2 ∧ p.2.id ∉ ids) ∧
      ((compareLoop th sts lts ids).1.map fun p => p.2.id).Nodup := by
  induction lts with
  | nil => intro ids; simp [compareLoop]
  | cons lt rest ih =>
    intro ids
    simp only [compareLoop]
    cases hm : match_track th lt.title lt.artist
        ((sts.filter fun st => !ids.contains st.id).map toMatcherFormat) with
    | none =>
      simp only
      exact ⟨(ih ids).1, fun p hp => (ih ids).2.1 p hp, (ih ids).2.2⟩
    | some r =>
      simp only
      cases hf : sts.find? (fun st => st.id == r.spotify_id) with
      | none =>
        simp only
        exact ⟨(ih ids).1, fun p hp => (ih ids).2.1 p hp, (ih ids).2.2⟩
      | some st =>
        simp only
        have hstid : st.id = r.spotify_id := by
          have := List.find?_some hf
          simpa using this
        have hfresh : r.spotify_id ∉ ids := match_track_id_fresh th lt.title lt.artist sts ids r hm
        obtain ⟨ihsub, ihmem, ihnodup⟩ := ih (r.spotify_id :: ids)
        refine ⟨?_, ?_, ?_⟩
        · intro x hx
          exact ihsub x (List.mem_cons_of_mem _ hx)
        · intro p hp
          rcases List.mem_cons.mp hp with hp | hp
          · subst hp
            simp only [hstid]
            exact ⟨ihsub r.spotify_id (List.mem_cons_self _ _), hfresh⟩
          · have := ihmem p hp
            exact ⟨this.1, fun hx => this.2 (List.mem_cons_of_mem _ hx)⟩
        · simp only [List.map_cons, List.nodup_cons]
          refine ⟨?_, ihnodup⟩
          intro hmem
          rcases List.mem_map.mp hmem with ⟨p, hp, hpid⟩
          refine (ihmem p hp).2 ?_
          have hpid' : p.2.id = st.id := hpid
          rw [hpid', hstid]
          exact List.mem_cons_self _ _

/-- Claim C2: in every `ComparisonResult`, no candidate identifier occurs
in more than one matched pair, and no identifier occurs both in a matched
pair and in `spotify_only`. -/
theorem claim_C2 (th : ℚ) (lts : List Track) (sts : List SpotifyTrack) :
    (((compare_playlists th lts sts).matched.map fun p => p.2.id).Nodup) ∧
    List.Disjoint ((compare_playlists th lts sts).matched.map fun p => p.2.id)
      ((compare_playlists th lts sts).spotify_only.map fun q => q.id) := by
  obtain ⟨hsub, hmem, hnodup⟩ := compareLoop_inv th sts lts []
  refine ⟨hnodup, ?_⟩
  intro x hx hx'
  simp only [compare_playlists] at hx hx'
  rcases List.mem_map.mp hx with ⟨p, hp, hpid⟩
  rcases List.mem_map.mp hx' with ⟨q, hq, hqid⟩
  rcases List.mem_filter.mp hq with ⟨_, hqkeep⟩
  have : p.2.id ∈ (compareLoop th sts lts []).2.2 := (hmem p hp).1
  rw [hpid, ← hqid] at this
  simp [this] at hqkeep

/-- Witness for C2 at concrete inputs. -/
theorem claim_C2_witness :
    (((compare_playlists 1 [] []).matched.map fun p => p.2.id).Nodup) ∧
    List.Disjoint ((compare_playlists 1 [] []).matched.map fun p => p.2.id)
      ((compare_playlists 1 [] []).spotify_only.map fun q => q.id) :=
  claim_C2 1 [] []

/-- Claim C7: with two local tracks that each match the same single
candidate on their own, `compare_playlists` matches the first local track,
puts the second into `local_only`, and never consumes the candidate
twice. -/
theorem claim_C7 (th : ℚ) (t1 t2 : Track) (c : SpotifyTrack) (r1 r2 : MatchResult)
    (h1 : match_track th t1.title t1.artist [toMatcherFormat c] = some r1)
    (h2 : match_track th t2.title t2.artist [toMatcherFormat c] = some r2) :
    (compare_playlists th [t1, t2] [c]).matched = [(t1, c)] ∧
    (compare_playlists th [t1, t2] [c]).local_only = [t2] ∧
    (compare_playlists th [t1, t2] [c]).spotify_only = [] := by
  have hid1 : r1.spotify_id = c.id := by
    rcases (match_track_some _ _ _ _ _ h1).2 with ⟨c', hc', hcid, _⟩
    have hc'' : c' = toMatcherFormat c := by simpa using hc'
    subst hc''
    have : some c.id = some r1.spotify_id := by simpa [toMatcherFormat] using hcid
    exact (Option.some.injEq _ _ ▸ this).symm
  have hfilter1 : (([c] : List SpotifyTrack).filter fun st => !([] : List Str).contains st.id) = [c] := by
    simp
  have hfind : ([c] : List SpotifyTrack).find? (fun st => st.id == r1.spotify_id) = some c := by
    simp [List.find?, hid1]
  have hfilter2 : (([c] : List SpotifyTrack).filter fun st => !([r1.spotify_id] : List Str).contains st.id) = [] := by
    simp [hid1]
  simp only [compare_playlists, compareLoop, hfilter1, List.map_cons, List.map_nil, h1, hfind,
    hfilter2, match_track_nil]
  simp [hid1]

/-- Witness for C7: two identical local tracks against one matching
candidate. -/
theorem claim_C7_witness :
    (compare_playlists (83/100)
      [⟨['a','b','c'], none, none, none⟩, ⟨['a','b','c'], none, none, none⟩]
      [⟨['i','d','1'], ['a','b','c'], ['x']⟩]).matched =
        [(⟨['a','b','c'], none, none, none⟩, ⟨['i','d','1'], ['a','b','c'], ['x']⟩)] ∧
    (compare_playlists (83/100)
      [⟨['a','b','c'], none, none, none⟩, ⟨['a','b','c'], none, none, none⟩]
      [⟨['i','d','1'], ['a','b','c'], ['x']⟩]).local_only =
        [⟨['a','b','c'], none, none, none⟩] ∧
    (compare_playlists (83/100)
      [⟨['a','b','c'], none, none, none⟩, ⟨['a','b','c'], none, none, none⟩]
      [⟨['i','d','1'], ['a','b','c'], ['x']⟩]).spotify_only = [] :=
  claim_C7 (83/100) ⟨['a','b','c'], none, none, none⟩ ⟨['a','b','c'], none, none, none⟩
    ⟨['i','d','1'], ['a','b','c'], ['x']⟩
    ⟨['i','d','1'], 1, ['a','b','c'], ['x'], ['a','b','c'], none⟩
    ⟨['i','d','1'], 1, ['a','b','c'], ['x'], ['a','b','c'], none⟩
    eval_match_abc eval_match_abc

/-- Claim C8: the match percentage equals
`matched_count / (local_count + right_only_count) * 100`, and `0.0` when
that denominator is zero. -/
theorem claim_C8 (th : ℚ) (lts : List Track) (sts : List SpotifyTrack) :
    ((compare_playlists th lts sts).total_local +
        (compare_playlists th lts sts).spotify_only.length = 0 →
      (compare_playlists th lts sts).match_percentage = 0) ∧
    ((compare_playlists th lts sts).total_local +
        (compare_playlists th lts sts).spotify_only.length ≠ 0 →
      (compare_playlists th lts sts).match_percentage =
        ((compare_playlists th lts sts).matched.length : ℚ) /
          (((compare_playlists th lts sts).total_local : ℚ) +
            ((compare_playlists th lts sts).spotify_only.length : ℚ)) * 100) := by
  simp only [compare_playlists]
  constructor
  · intro h0
    rw [if_neg (by omega)]
  · intro hne
    rw [if_pos (by omega)]
    push_cast
    ring

theorem toLower_idem (c : Char) : c.toLower.toLower = c.toLower := by
  unfold Char.toLower
  by_cases h : c.toNat ≥ 65 ∧ c.toNat ≤ 90
  · simp only [if_pos h]
    obtain ⟨h1, h2⟩ := h
    set n := c.toNat with hn
    interval_cases n <;> decide
  · simp only [if_neg h]

theorem lowerStr_fixed (s : Str) (h : ∀ c ∈ s, c.toLower = c) : lowerStr s = s := by
  unfold lowerStr
  induction s with
  | nil => rfl
  | cons c cs ih =>
    simp only [List.map_cons]
    rw [h c (List.mem_cons_self _ _), ih fun x hx => h x (List.mem_cons_of_mem _ hx)]

theorem pySplit_head_prefix (sep : Char) (s : Str) :
    ∀ w ws, pySplit sep s = w :: ws → w <+: s := by
  induction s with
  | nil =>
    intro w ws h
    simp only [pySplit] at h
    injection h with h1 h2
    subst h1
    exact List.nil_prefix
  | cons c rest ih =>
    intro w ws h
    by_cases hc : c = sep
    · simp only [pySplit, if_pos hc] at h
      injection h with h1 h2
      subst h1
      exact List.nil_prefix
    · simp only [pySplit, if_neg hc] at h
      cases hsp : pySplit sep rest with
      | nil =>
        rw [hsp] at h
        injection h with h1 h2
        subst h1
        exact ⟨rest, rfl⟩
      | cons w' ws' =>
        rw [hsp] at h
        injection h with h1 h2
        subst h1
        rcases ih w' ws' hsp with ⟨t, rfl⟩
        exact ⟨t, rfl⟩

theorem mem_pySplit_within (sep : Char) (s : Str) (n : Str) (h : n ∈ pySplit sep s) :
    n <:+: s := by
  induction s generalizing n with
  | nil =>
    simp only [pySplit, List.mem_singleton] at h
    subst h
    exact List.nil_infix
  | cons c rest ih =>
    by_cases hc : c = sep
    · simp only [pySplit, if_pos hc] at h
      rcases List.mem_cons.mp h with h | h
      · subst h
        exact List.nil_infix
      · exact (ih n h).trans (List.infix_cons (List.infix_refl rest))
    · simp only [pySplit, if_neg hc] at h
      cases hsp : pySplit sep rest with
      | nil =>
        rw [hsp] at h
        simp only [List.mem_singleton] at h
        subst h
        exact ⟨[], rest, rfl⟩
      | cons w' ws' =>
        rw [hsp] at h
        rcases List.mem_cons.mp h with h | h
        · subst h
          rcases pySplit_head_prefix sep rest w' ws' hsp with ⟨t, rfl⟩
          exact ⟨[], t, rfl⟩
        · have hmem : n ∈ pySplit sep rest := by rw [hsp]; exact List.mem_cons_of_mem _ h
          exact (ih n hmem).trans (List.infix_cons (List.infix_refl rest))

theorem pstrip_within (s : Str) : pstrip s <:+: s := by
  unfold pstrip
  have h1 : (s.dropWhile isSpaceChar) <:+ s := List.dropWhile_suffix _
  have h2 : ((s.dropWhile isSpaceChar).reverse.dropWhile isSpaceChar) <:+
      (s.dropWhile isSpaceChar).reverse := List.dropWhile_suffix _
  have h3 : ((s.dropWhile isSpaceChar).reverse.dropWhile isSpaceChar).reverse <+:
      (s.dropWhile isSpaceChar) := by
    apply List.reverse_suffix.mp
    rw [List.reverse_reverse]
    exact h2
  exact h3.isInfix.trans h1.isInfix

theorem infix_map (f : Char → Char) (a b : Str) (h : a <:+: b) : a.map f <:+: b.map f := by
  rcases h with ⟨s, t, rfl⟩
  exact ⟨s.map f, t.map f, by simp⟩

theorem tryFeatPrefixes_within (ps : List Str) (u : Str) (g after : Str)
    (h : tryFeatPrefixes ps u = some (g, after)) : g <:+: u ∧ after <:+ u := by
  induction ps with
  | nil => simp [tryFeatPrefixes] at h
  | cons p ps ih =>
    simp only [tryFeatPrefixes] at h
    by_cases hp : p.isPrefixOf u
    · rw [if_pos hp] at h
      cases hsp : splitAtChar ')' (u.drop p.length) with
      | none => rw [hsp] at h; exact ih h
      | some bp =>
        obtain ⟨bf, af⟩ := bp
        rw [hsp] at h
        simp only at h
        by_cases hb : bf = []
        · rw [if_pos hb] at h; exact ih h
        · rw [if_neg hb] at h
          simp only [Option.some.injEq, Prod.mk.injEq] at h
          obtain ⟨h1, h2⟩ := h
          subst h1
          subst h2
          have hdec := splitAtChar_append ')' (u.drop p.length) bf af hsp
          have hdropsuf : u.drop p.length <:+ u := List.drop_suffix _ _
          have hbf : bf <:+: u := by
            have : bf <+: u.drop p.length := ⟨')' :: af, hdec.symm⟩
            exact this.isInfix.trans hdropsuf.isInfix
          have haf : af <:+ u := by
            have : af <:+ u.drop p.length := by
              rw [hdec]
              exact ⟨bf ++ [')'], by simp⟩
            exact this.trans hdropsuf
          refine ⟨?_, haf⟩
          split
          · exact ((List.drop_suffix _ _).isInfix).trans hbf
          · exact ((List.dropWhile_suffix _).isInfix).trans hbf
    · rw [if_neg hp] at h
      exact ih h

theorem findFeatsF_within (fuel : Nat) (s : Str) (g : Str) (h : g ∈ findFeatsF fuel s) :
    g <:+: s := by
  induction fuel generalizing s with
  | zero =>
    cases s with
    | nil => simp [findFeatsF] at h
    | cons c rest => simp [findFeatsF] at h
  | succ fuel ih =>
    cases s with
    | nil => simp [findFeatsF] at h
    | cons c rest =>
      simp only [findFeatsF] at h
      by_cases hc : c = '('
      · rw [if_pos hc] at h
        cases htf : tryFeatPrefixes featPrefixes rest with
        | none =>
          rw [htf] at h
          exact (ih rest h).trans (List.infix_cons (List.infix_refl rest))
        | some p =>
          obtain ⟨g', after⟩ := p
          rw [htf] at h
          simp only at h
          rcases List.mem_cons.mp h with h | h
          · subst h
            exact ((tryFeatPrefixes_within _ _ _ _ htf).1).trans
              (List.infix_cons (List.infix_refl rest))
          · exact ((ih after h).trans
              ((tryFeatPrefixes_within _ _ _ _ htf).2).isInfix).trans
              (List.infix_cons (List.infix_refl rest))
      · rw [if_neg hc] at h
        exact (ih rest h).trans (List.infix_cons (List.infix_refl rest))

theorem findSpansF_within (openC closeC : Char) (fuel : Nat) (s : Str) (v : Str)
    (h : v ∈ findSpansF openC closeC fuel s) : v <:+: s := by
  induction fuel generalizing s with
  | zero =>
    cases s with
    | nil => simp [findSpansF] at h
    | cons c rest => simp [findSpansF] at h
  | succ fuel ih =>
    cases s with
    | nil => simp [findSpansF] at h
    | cons c rest =>
      simp only [findSpansF] at h
      by_cases hc : c = openC
      · rw [if_pos hc] at h
        cases hsp : splitAtChar closeC rest with
        | none =>
          rw [hsp] at h
          exact (ih rest h).trans (List.infix_cons (List.infix_refl rest))
        | some p =>
          obtain ⟨content, after⟩ := p
          rw [hsp] at h
          simp only at h
          have hdec := splitAtChar_append closeC rest content after hsp
          have hcontent : content <:+: rest := ⟨[], closeC :: after, hdec.symm⟩
          have hafter : after <:+ rest := by
            rw [hdec]; exact ⟨content ++ [closeC], by simp⟩
          by_cases hk : containsKeyword content = true
          · rw [if_pos hk] at h
            rcases List.mem_cons.mp h with h | h
            · subst h
              exact hcontent.trans (List.infix_cons (List.infix_refl rest))
            · exact ((ih after h).trans hafter.isInfix).trans
                (List.infix_cons (List.infix_refl rest))
          · rw [if_neg hk] at h
            exact (ih rest h).trans (List.infix_cons (List.infix_refl rest))
      · rw [if_neg hc] at h
        exact (ih rest h).trans (List.infix_cons (List.infix_refl rest))

theorem mem_removeSpansF (openC closeC : Char) (fuel : Nat) (s : Str) (x : Char)
    (h : x ∈ removeSpansF openC closeC fuel s) : x ∈ s := by
  induction fuel generalizing s with
  | zero =>
    cases s with
    | nil => simp [removeSpansF] at h
    | cons c rest => simp only [removeSpansF] at h; exact h
  | succ fuel ih =>
    cases s with
    | nil => simp [removeSpansF] at h
    | cons c rest =>
      simp only [removeSpansF] at h
      by_cases hc : c = openC
      · rw [if_pos hc] at h
        cases hsp : splitAtChar closeC rest with
        | none =>
          rw [hsp] at h
          rcases List.mem_cons.mp h with h | h
          · simp [h]
          · exact List.mem_cons_of_mem _ (ih rest h)
        | some p =>
          obtain ⟨content, after⟩ := p
          rw [hsp] at h
          simp only at h
          have hdec := splitAtChar_append closeC rest content after hsp
          have : x ∈ rest := by
            rw [hdec]
            have := ih after h
            simp [this]
          exact List.mem_cons_of_mem _ this
      · rw [if_neg hc] at h
        rcases List.mem_cons.mp h with h | h
        · simp [h]
        · exact List.mem_cons_of_mem _ (ih rest h)

theorem findFeats_within (t g : Str) (h : g ∈ findFeats t) : g <:+: t :=
  findFeatsF_within _ _ _ h

/-- Counterexample to C4: in `"song (feat. alice)"`, the name `"alice"`
appears nowhere outside the featuring span (the text with parenthesized
spans stripped is `"song "`), so by the claim the group should survive
into the normalized output; but the output is `"song"`, and `"alice"` is
gone. -/
theorem claim_C4_counterexample :
    findFeats ['s','o','n','g',' ','(','f','e','a','t','.',' ','a','l','i','c','e',')'] =
      [['a','l','i','c','e']] ∧
    pyIn ['a','l','i','c','e']
      (removeSpans '(' ')'
        ['s','o','n','g',' ','(','f','e','a','t','.',' ','a','l','i','c','e',')']) = false ∧
    clean_string (some ['s','o','n','g',' ','(','f','e','a','t','.',' ','a','l','i','c','e',')']) =
      ['s','o','n','g'] ∧
    pyIn ['a','l','i','c','e']
      (clean_string
        (some ['s','o','n','g',' ','(','f','e','a','t','.',' ','a','l','i','c','e',')'])) =
      false := by
  refine ⟨by decide, by decide, by decide, by decide⟩

/-- Claim C4 (amended): an extracted featuring name-group survives into
the normalized output if and only if every component name (split on `&`
and on `,`) is whitespace-only.  The code's membership check searches the
whole lower-cased text, which still contains the span itself, and every
non-blank component is a substring of the span, so any group with a
non-blank component is always found and dropped. -/
theorem claim_C4 (text g : Str) (hg : g ∈ findFeats text) :
    g ∈ (findFeats text).filter (fun f => ! anyNameInText f text) ↔
      ∀ n ∈ pySplit '&' g ++ pySplit ',' g, pstrip n = [] := by
  rw [List.mem_filter]
  constructor
  · rintro ⟨-, hkeep⟩ n hn
    by_contra hne
    have hng : n <:+: g := by
      rcases List.mem_append.mp hn with hn | hn
      · exact mem_pySplit_within '&' g n hn
      · exact mem_pySplit_within ',' g n hn
    have hinf : pstrip n <:+: text :=
      ((pstrip_within n).trans hng).trans (findFeats_within text g hg)
    have hpy : pyIn (lowerStr (pstrip n)) (lowerStr text) = true := by
      simp only [pyIn, decide_eq_true_eq]
      exact infix_map Char.toLower _ _ hinf
    have hany : anyNameInText g text = true := by
      simp only [anyNameInText, List.any_eq_true]
      exact ⟨n, hn, by simp [hne, hpy]⟩
    simp [hany] at hkeep
  · intro hall
    refine ⟨hg, ?_⟩
    simp only [anyNameInText, Bool.not_eq_true', List.any_eq_false]
    intro n hn
    simp [hall n hn]

/-- Witness for C4 at the concrete text `"song (feat. alice)"` and its
extracted group `"alice"`. -/
theorem claim_C4_witness :
    ['a','l','i','c','e'] ∈
      (findFeats ['s','o','n','g',' ','(','f','e','a','t','.',' ','a','l','i','c','e',')']).filter
        (fun f => ! anyNameInText f
          ['s','o','n','g',' ','(','f','e','a','t','.',' ','a','l','i','c','e',')']) ↔
      ∀ n ∈ pySplit '&' ['a','l','i','c','e'] ++ pySplit ',' ['a','l','i','c','e'],
        pstrip n = [] :=
  claim_C4 ['s','o','n','g',' ','(','f','e','a','t','.',' ','a','l','i','c','e',')']
    ['a','l','i','c','e'] (by decide)

/-- Witness for C8: the empty run (zero denominator) and a run with one
unmatched Spotify track (denominator one). -/
theorem claim_C8_witness :
    (compare_playlists 1 [] []).match_percentage = 0 ∧
    (compare_playlists 1 [] [⟨['i'],['n'],['a']⟩]).match_percentage =
      ((compare_playlists 1 [] [⟨['i'],['n'],['a']⟩]).matched.length : ℚ) /
        (((compare_playlists 1 [] [⟨['i'],['n'],['a']⟩]).total_local : ℚ) +
          ((compare_playlists 1 [] [⟨['i'],['n'],['a']⟩]).spotify_only.length : ℚ)) * 100 :=
  ⟨(claim_C8 1 [] []).1 rfl, (claim_C8 1 [] [⟨['i'],['n'],['a']⟩]).2 (by decide)⟩

theorem splitWSAux_cons (c : Char) (s : Str) :
    splitWSAux (c :: s) =
      if isSpaceChar c then [] :: splitWSAux s
      else
        match splitWSAux s with
        | [] => [[c]]
        | w :: ws => (c :: w) :: ws := rfl

theorem mem_splitWSAux (s : Str) :
    ∀ w ∈ splitWSAux s, ∀ c ∈ w, c ∈ s ∧ isSpaceChar c = false := by
  induction s with
  | nil => intro w hw; simp [splitWSAux] at hw
  | cons c rest ih =>
    intro w hw x hx
    rw [splitWSAux_cons] at hw
    by_cases hc : isSpaceChar c
    · rw [if_pos hc] at hw
      rcases List.mem_cons.mp hw with hw | hw
      · subst hw; simp at hx
      · have := ih w hw x hx
        exact ⟨List.mem_cons_of_mem _ this.1, this.2⟩
    · rw [if_neg hc] at hw
      cases haux : splitWSAux rest with
      | nil =>
        rw [haux] at hw
        simp only [List.mem_singleton] at hw
        subst hw
        simp only [List.mem_singleton] at hx
        subst hx
        exact ⟨List.mem_cons_self _ _, by simpa using hc⟩
      | cons w' ws' =>
        rw [haux] at hw
        rcases List.mem_cons.mp hw with hw | hw
        · subst hw
          rcases List.mem_cons.mp hx with hx | hx
          · subst hx
            exact ⟨List.mem_cons_self _ _, by simpa using hc⟩
          · have := ih w' (by rw [haux]; exact List.mem_cons_self _ _) x hx
            exact ⟨List.mem_cons_of_mem _ this.1, this.2⟩
        · have := ih w (by rw [haux]; exact List.mem_cons_of_mem _ hw) x hx
          exact ⟨List.mem_cons_of_mem _ this.1, this.2⟩

theorem mem_splitWS (s : Str) (w : Str) (hw : w ∈ splitWS s) :
    w ≠ [] ∧ ∀ c ∈ w, c ∈ s ∧ isSpaceChar c = false := by
  rcases List.mem_filter.mp hw with ⟨hmem, hne⟩
  refine ⟨by simpa using hne, mem_splitWSAux s w hmem⟩

theorem mem_joinSpace (ws : List Str) (c : Char) (h : c ∈ joinSpace ws) :
    c = ' ' ∨ ∃ w ∈ ws, c ∈ w := by
  induction ws with
  | nil => simp [joinSpace] at h
  | cons w vs ih =>
    cases vs with
    | nil =>
      right
      exact ⟨w, List.mem_singleton_self _, by simpa [joinSpace] using h⟩
    | cons v vs' =>
      simp only [joinSpace] at h
      rcases List.mem_append.mp h with h | h
      · exact Or.inr ⟨w, List.mem_cons_self _ _, h⟩
      · rcases List.mem_cons.mp h with h | h
        · exact Or.inl h
        · rcases ih h with h | ⟨w', hw', hc⟩
          · exact Or.inl h
          · exact Or.inr ⟨w', List.mem_cons_of_mem _ hw', hc⟩

theorem splitWSAux_append_word (w t : Str) (hw : ∀ c ∈ w, isSpaceChar c = false) :
    w ≠ [] →
    splitWSAux (w ++ t) =
      match splitWSAux t with
      | [] => [w]
      | u :: us => (w ++ u) :: us := by
  induction w with
  | nil => intro h; exact absurd rfl h
  | cons c w' ih =>
    intro _
    have hc : isSpaceChar c = false := hw c (List.mem_cons_self _ _)
    rw [List.cons_append, splitWSAux_cons, if_neg (by simp [hc])]
    by_cases hw' : w' = []
    · subst hw'
      simp only [List.nil_append]
      cases splitWSAux t with
      | nil => rfl
      | cons u us => rfl
    · rw [ih (fun x hx => hw x (List.mem_cons_of_mem _ hx)) hw']
      cases splitWSAux t with
      | nil => rfl
      | cons u us => rfl

theorem splitWS_joinSpace (ws : List Str)
    (h : ∀ w ∈ ws, w ≠ [] ∧ ∀ c ∈ w, isSpaceChar c = false) :
    splitWS (joinSpace ws) = ws := by
  induction ws with
  | nil => rfl
  | cons w vs ih =>
    rcases h w (List.mem_cons_self _ _) with ⟨hwne, hwchars⟩
    cases vs with
    | nil =>
      show splitWS (joinSpace [w]) = [w]
      unfold splitWS
      rw [show joinSpace [w] = w ++ [] from (List.append_nil w).symm,
        splitWSAux_append_word w [] hwchars hwne]
      simp [splitWSAux, List.filter, hwne]
    | cons v vs' =>
      show splitWS (w ++ ' ' :: joinSpace (v :: vs')) = w :: v :: vs'
      unfold splitWS
      rw [splitWSAux_append_word w (' ' :: joinSpace (v :: vs')) hwchars hwne]
      rw [splitWSAux_cons, if_pos (by decide)]
      simp only [List.append_nil]
      have := ih fun x hx => h x (List.mem_cons_of_mem _ hx)
      unfold splitWS at this
      simp only [List.filter_cons]
      rw [if_pos (by simpa using hwne)]
      rw [this]

theorem joinSpace_cons_decomp (w : Str) (ws : List Str) :
    joinSpace (w :: ws) = w ∨ joinSpace (w :: ws) = w ++ ' ' :: joinSpace ws := by
  cases ws with
  | nil => exact Or.inl rfl
  | cons v vs => exact Or.inr rfl

theorem joinSpace_reverse_head (ws : List Str)
    (h : ∀ w ∈ ws, w ≠ [] ∧ ∀ c ∈ w, isSpaceChar c = false) :
    ws ≠ [] →
    ∃ c cs, (joinSpace ws).reverse = c :: cs ∧ isSpaceChar c = false := by
  induction ws with
  | nil => intro hne; exact absurd rfl hne
  | cons w vs ih =>
    intro _
    rcases h w (List.mem_cons_self _ _) with ⟨hwne, hwchars⟩
    cases vs with
    | nil =>
      cases hrev : w.reverse with
      | nil => exact absurd (by simpa using hrev) hwne
      | cons c cs =>
        refine ⟨c, cs, by simpa [joinSpace] using hrev, ?_⟩
        have : c ∈ w.reverse := by rw [hrev]; exact List.mem_cons_self _ _
        exact hwchars c (List.mem_reverse.mp this)
    | cons v vs' =>
      rcases ih (fun x hx => h x (List.mem_cons_of_mem _ hx)) (by simp) with ⟨c, cs, hrev, hc⟩
      refine ⟨c, cs ++ ' ' :: w.reverse, ?_, hc⟩
      show (w ++ ' ' :: joinSpace (v :: vs')).reverse = _
      rw [List.reverse_append, List.reverse_cons, hrev]
      simp

theorem pstrip_joinSpace (ws : List Str)
    (h : ∀ w ∈ ws, w ≠ [] ∧ ∀ c ∈ w, isSpaceChar c = false) :
    pstrip (joinSpace ws) = joinSpace ws := by
  cases ws with
  | nil => rfl
  | cons w vs =>
    rcases h w (List.mem_cons_self _ _) with ⟨hwne, hwchars⟩
    obtain ⟨c, w', rfl⟩ : ∃ c w', w = c :: w' := by
      cases w with
      | nil => exact absurd rfl hwne
      | cons c w' => exact ⟨c, w', rfl⟩
    have hc : isSpaceChar c = false := hwchars c (List.mem_cons_self _ _)
    have hdrop1 : (joinSpace ((c :: w') :: vs)).dropWhile isSpaceChar =
        joinSpace ((c :: w') :: vs) := by
      rcases joinSpace_cons_decomp (c :: w') vs with hj | hj <;>
        rw [hj] <;> simp [List.dropWhile_cons, hc]
    have hdrop2 : (joinSpace ((c :: w') :: vs)).reverse.dropWhile isSpaceChar =
        (joinSpace ((c :: w') :: vs)).reverse := by
      rcases joinSpace_reverse_head ((c :: w') :: vs) h (by simp) with ⟨x, cs, hrev, hx⟩
      rw [hrev]
      simp [List.dropWhile_cons, hx]
    unfold pstrip
    rw [hdrop1, hdrop2, List.reverse_reverse]

theorem findSpansF_eq_nil (openC closeC : Char) (fuel : Nat) (s : Str)
    (h : ∀ c ∈ s, c ≠ openC) : findSpansF openC closeC fuel s = [] := by
  induction fuel generalizing s with
  | zero => cases s <;> rfl
  | succ fuel ih =>
    cases s with
    | nil => rfl
    | cons c rest =>
      simp only [findSpansF]
      rw [if_neg (h c (List.mem_cons_self _ _))]
      exact ih rest fun x hx => h x (List.mem_cons_of_mem _ hx)

theorem findFeatsF_eq_nil (fuel : Nat) (s : Str) (h : ∀ c ∈ s, c ≠ '(') :
    findFeatsF fuel s = [] := by
  induction fuel generalizing s with
  | zero => cases s <;> rfl
  | succ fuel ih =>
    cases s with
    | nil => rfl
    | cons c rest =>
      simp only [findFeatsF]
      rw [if_neg (h c (List.mem_cons_self _ _))]
      exact ih rest fun x hx => h x (List.mem_cons_of_mem _ hx)

theorem removeSpansF_eq_self (openC closeC : Char) (fuel : Nat) (s : Str)
    (h : ∀ c ∈ s, c ≠ openC) (hl : s.length ≤ fuel) :
    removeSpansF openC closeC fuel s = s := by
  induction fuel generalizing s with
  | zero =>
    cases s with
    | nil => rfl
    | cons c rest => simp at hl
  | succ fuel ih =>
    cases s with
    | nil => rfl
    | cons c rest =>
      simp only [removeSpansF]
      rw [if_neg (h c (List.mem_cons_self _ _))]
      rw [ih rest (fun x hx => h x (List.mem_cons_of_mem _ hx)) (by simpa using Nat.le_of_succ_le_succ (by simpa using hl))]

theorem map_fixed (f : Char → Char) (s : Str) (h : ∀ c ∈ s, f c = c) : s.map f = s := by
  induction s with
  | nil => rfl
  | cons c cs ih =>
    simp only [List.map_cons]
    rw [h c (List.mem_cons_self _ _), ih fun x hx => h x (List.mem_cons_of_mem _ hx)]

theorem mem_cleanImportant (text : Str) (w : Str) (hw : w ∈ cleanImportant text) :
    ∀ x ∈ w, x ∈ text := by
  intro x hx
  rcases List.mem_append.mp hw with hw | hw
  · rcases List.mem_append.mp hw with hw | hw
    · exact (findSpansF_within _ _ _ _ _ hw).sublist.mem hx
    · exact (findSpansF_within _ _ _ _ _ hw).sublist.mem hx
  · exact (findFeatsF_within _ _ _ (List.mem_filter.mp hw).1).sublist.mem hx

theorem mem_textTwo (text : Str) (x : Char) (hx : x ∈ textTwo text) :
    x ∈ text ∨ x = ' ' := by
  have htext1 : ∀ y ∈ textOne text, y ∈ text := by
    intro y hy
    exact mem_removeSpansF _ _ _ _ _ (mem_removeSpansF _ _ _ _ _ hy)
  unfold textTwo at hx
  split at hx
  · rcases List.mem_append.mp hx with hx | hx
    · exact Or.inl (htext1 x hx)
    · rcases List.mem_cons.mp hx with hx | hx
      · exact Or.inr hx
      · rcases mem_joinSpace _ _ hx with hx | ⟨w, hw, hxw⟩
        · exact Or.inr hx
        · exact Or.inl (mem_cleanImportant text w hw x hxw)
  · exact Or.inl (htext1 x hx)

theorem splitWS_textThree_words (text : Str) :
    ∀ w ∈ splitWS (textThree text), w ≠ [] ∧
      ∀ c ∈ w, isWordChar c = true ∧ isSpaceChar c = false ∧ (c ∈ text ∨ c = ' ') := by
  intro w hw
  rcases mem_splitWS _ w hw with ⟨hne, hchars⟩
  refine ⟨hne, ?_⟩
  intro c hc
  rcases hchars c hc with ⟨hmem, hnospace⟩
  unfold textThree at hmem
  rcases List.mem_map.mp hmem with ⟨x, hx, hmap⟩
  by_cases hcond : (isWordChar x || isSpaceChar x) = true
  · rw [if_pos hcond] at hmap
    subst hmap
    rcases Bool.or_eq_true_iff.mp hcond with hword | hspace
    · exact ⟨hword, hnospace, mem_textTwo text x hx⟩
    · rw [hspace] at hnospace
      exact absurd hnospace (by simp)
  · rw [if_neg hcond] at hmap
    subst hmap
    exact absurd hnospace (by simp [isSpaceChar])

theorem cleanBody_join (text : Str) :
    cleanBody text = joinSpace (splitWS (textThree text)) := by
  unfold cleanBody
  exact pstrip_joinSpace _ fun w hw =>
    ⟨(splitWS_textThree_words text w hw).1,
     fun c hc => ((splitWS_textThree_words text w hw).2 c hc).2.1⟩

theorem cleanBody_canonical_fixed (ws : List Str)
    (hws : ∀ w ∈ ws, w ≠ [] ∧ ∀ c ∈ w, isWordChar c = true ∧ isSpaceChar c = false) :
    cleanBody (joinSpace ws) = joinSpace ws := by
  have hcharU : ∀ c ∈ joinSpace ws, isWordChar c = true ∨ c = ' ' := by
    intro c hc
    rcases mem_joinSpace ws c hc with h | ⟨w, hw, hcw⟩
    · exact Or.inr h
    · exact Or.inl ((hws w hw).2 c hcw).1
  have hnoParen : ∀ c ∈ joinSpace ws, c ≠ '(' := by
    intro c hc heq
    rcases hcharU c hc with h | h
    · rw [heq] at h; exact absurd h (by decide)
    · rw [heq] at h; exact absurd h (by decide)
  have hnoBracket : ∀ c ∈ joinSpace ws, c ≠ '[' := by
    intro c hc heq
    rcases hcharU c hc with h | h
    · rw [heq] at h; exact absurd h (by decide)
    · rw [heq] at h; exact absurd h (by decide)
  have himp : cleanImportant (joinSpace ws) = [] := by
    unfold cleanImportant
    rw [show findSpans '[' ']' (joinSpace ws) = [] from findSpansF_eq_nil _ _ _ _ hnoBracket]
    rw [show findSpans '(' ')' (joinSpace ws) = [] from findSpansF_eq_nil _ _ _ _ hnoParen]
    rw [show findFeats (joinSpace ws) = [] from findFeatsF_eq_nil _ _ hnoParen]
    simp
  have htext1 : textOne (joinSpace ws) = joinSpace ws := by
    unfold textOne
    rw [show removeSpans '(' ')' (joinSpace ws) = joinSpace ws from
      removeSpansF_eq_self _ _ _ _ hnoParen le_rfl]
    exact removeSpansF_eq_self _ _ _ _ hnoBracket le_rfl
  have htext2 : textTwo (joinSpace ws) = joinSpace ws := by
    unfold textTwo
    rw [himp]
    simp [htext1]
  have htext3 : textThree (joinSpace ws) = joinSpace ws := by
    unfold textThree
    rw [htext2]
    apply map_fixed
    intro c hc
    rcases hcharU c hc with h | h
    · rw [if_pos (by simp [h])]
    · subst h
      rw [if_pos (by decide)]
  have hsplit : splitWS (joinSpace ws) = ws :=
    splitWS_joinSpace ws fun w hw =>
      ⟨(hws w hw).1, fun c hc => ((hws w hw).2 c hc).2⟩
  rw [cleanBody_join, htext3, hsplit]

/-- Claim C10: normalization is idempotent — applying `_clean_string`
twice yields the same result as applying it once.  The output consists of
lower-case-stable word characters separated by single spaces, with no
parenthesized or bracketed spans left to process. -/
theorem claim_C10 (t : Option Str) :
    clean_string (some (clean_string t)) = clean_string t := by
  have key : ∀ s : Str, clean_string (some (clean_string (some s))) = clean_string (some s) := by
    intro s
    by_cases hs : s = []
    · subst hs; rfl
    · have h1 : clean_string (some s) = cleanBody (lowerStr s) := by simp [clean_string, hs]
      rw [h1, cleanBody_join]
      have hwords := splitWS_textThree_words (lowerStr s)
      have hfix : ∀ w ∈ splitWS (textThree (lowerStr s)), w ≠ [] ∧
          ∀ c ∈ w, isWordChar c = true ∧ isSpaceChar c = false ∧ c.toLower = c := by
        intro w hw
        rcases hwords w hw with ⟨hne, hchars⟩
        refine ⟨hne, fun c hc => ?_⟩
        rcases hchars c hc with ⟨hword, hnospace, hmem⟩
        refine ⟨hword, hnospace, ?_⟩
        rcases hmem with hmem | hmem
        · simp only [lowerStr] at hmem
          rcases List.mem_map.mp hmem with ⟨y, _, hy⟩
          rw [← hy]
          exact toLower_idem y
        · subst hmem; decide
      by_cases hnil : joinSpace (splitWS (textThree (lowerStr s))) = []
      · rw [hnil]; rfl
      · have h2 : clean_string (some (joinSpace (splitWS (textThree (lowerStr s))))) =
            cleanBody (lowerStr (joinSpace (splitWS (textThree (lowerStr s))))) := by
          simp [clean_string, hnil]
        have hlow : lowerStr (joinSpace (splitWS (textThree (lowerStr s)))) =
            joinSpace (splitWS (textThree (lowerStr s))) := by
          apply lowerStr_fixed
          intro c hc
          rcases mem_joinSpace _ c hc with h | ⟨w, hw, hcw⟩
          · subst h; decide
          · exact ((hfix w hw).2 c hcw).2.2
        rw [h2, hlow,
          cleanBody_canonical_fixed _ fun w hw =>
            ⟨(hfix w hw).1, fun c hc => ⟨((hfix w hw).2 c hc).1, ((hfix w hw).2 c hc).2.1⟩⟩]
  cases t with
  | none => rfl
  | some s => exact key s

/-- The Scorer of spec §4.2, written step by step from the spec's words,
with the step-3 skip condition amended: `total_score` is the bare
`title_score` when the normalized local artist is empty OR the normalized
candidate artist is empty; the boost rules and the weighted combination
apply only when both are non-empty. -/
def specScorerTotal (local_title local_artist cand_title cand_artist : Str) : ℚ :=
  let norm_cand_title := clean_string (some cand_title)
  let norm_cand_artist := clean_string (some cand_artist)
  let title_score := ratio local_title norm_cand_title
  let base :=
    if local_artist = [] ∨ norm_cand_artist = [] then title_score
    else
      let a0 := ratio local_artist norm_cand_artist
      let a1 :=
        if pyIn (lowerStr local_artist) (lowerStr norm_cand_artist) then max a0 (9 / 10)
        else a0
      let a2 :=
        if sameWordSet (splitWS local_artist) (splitWS norm_cand_artist) ∧
            1 < (splitWS local_artist).dedup.length then max a1 (19 / 20)
        else a1
      if a2 < 3 / 5 then 2 / 5 * title_score + 3 / 5 * a2
      else 3 / 5 * title_score + 2 / 5 * a2
  if local_title = norm_cand_title then min 1 (base + 1 / 10) else base

/-- Counterexample to C5: with a non-empty local artist `"b"` and a
candidate artist `"!!!"` that normalizes to the empty string, the scorer
returns the bonused bare title score 1, not the weighted combination
`min(1, 0.4*1 + 0.6*0 + 0.1) = 0.5` the claim prescribes for every
non-empty local artist. -/
theorem claim_C5_counterexample :
    clean_string (some ['!','!','!']) = [] ∧
    ratio ['a'] (clean_string (some ['a'])) = 1 ∧
    ratio ['b'] (clean_string (some ['!','!','!'])) = 0 ∧
    calculate_match_score ['a'] ['b'] ['a'] ['!','!','!'] = 1 ∧
    (1 : ℚ) ≠ min 1 (2 / 5 * 1 + 3 / 5 * 0 + 1 / 10) := by
  have h1 : clean_string (some ['!','!','!']) = [] := by decide
  have h2 : clean_string (some ['a']) = ['a'] := by decide
  have h3 : indelDist ['a'] ['a'] = 0 := by decide
  have h4 : indelDist ['b'] [] = 1 := by decide
  refine ⟨h1, ?_, ?_, ?_, ?_⟩
  · norm_num [ratio, h2, h3]
  · norm_num [ratio, h1, h4]
  · norm_num [calculate_match_score, h1, h2, h3, ratio]
  · norm_num

/-- Claim C5 (amended): the scorer computes exactly the spec §4.2 formula
with the skip condition "local artist empty OR normalized candidate
artist empty"; in particular the weighted combination (0.4/0.6 versus
0.6/0.4 around the 0.6 artist-score cutoff) applies exactly when both
normalized artist strings are non-empty. -/
theorem claim_C5 (lt la st sa : Str) :
    calculate_match_score lt la st sa = specScorerTotal lt la st sa := by
  simp only [calculate_match_score, specScorerTotal]
  have hbase : ∀ t X : ℚ,
      (if X < 3 / 5 then t * (2 / 5) + X * (3 / 5) else t * (3 / 5) + X * (2 / 5)) =
        (if X < 3 / 5 then 2 / 5 * t + 3 / 5 * X else 3 / 5 * t + 2 / 5 * X) := by
    intro t X
    split_ifs <;> ring
  by_cases h : la ≠ [] ∧ clean_string (some sa) ≠ []
  · rw [if_pos h,
      if_neg (show ¬(la = [] ∨ clean_string (some sa) = []) from
        fun hc => hc.elim h.1 h.2),
      hbase]
  · rw [if_neg h, if_pos ((not_and_or.mp h).imp not_not.mp not_not.mp)]
